import Mathlib

/-!
Verification of the five-letter-words search program (`fiveletterwords.cpp`).

The program reads a word list, keeps the words of length 5 whose letter-set
bitmap has exactly 5 bits, partitions them into buckets keyed by the first
pivot letter (priority order `etaoinshrldu`, plus a catch-all bucket),
flattens the buckets into one indexed corpus, and then enumerates all
5-tuples of pairwise letter-disjoint words with a pruned nested search.

The definitions below are a shallow embedding of that source.  Machine
integers are modelled by `Nat`; the C++ expression `1 << (c - 'a')` is
modelled by `2 ^ (c - 97)` (they agree exactly on the defined-behaviour
domain `'a' ≤ c`, i.e. whenever the shift amount is non-negative; the
program's failure to validate this is itself one of the audited claims).
-/

namespace FiveWords

/-- Source constant `WORD_LENGTH = 5`. -/
def WORD_LENGTH : Nat := 5

/-- Character codes of a word (the C++ code iterates over `char`s). -/
def wordCodes (w : String) : List Nat := w.data.map Char.toNat

/-- Letter-set bitmap of a word, the `std::accumulate` at lines 107-109:
`bitmap |= 1 << (c - 'a')` folded over the characters, starting from 0. -/
def bitmapOf (w : List Nat) : Nat := w.foldl (fun bm c => bm ||| 2 ^ (c - 97)) 0

/-- Number of set bits among the 32 bits of a `uint32_t`
(`std::popcount` / `std::bitset<32>::count` at lines 112-118). -/
def popcount32 (n : Nat) : Nat := (List.range 32).countP fun i => n.testBit i

/-- The two admission filters of the corpus loop: length 5 (line 100) and
bitmap popcount 5, i.e. no repeated letters (line 121). -/
def isAdmitted (w : String) : Bool :=
  w.length == WORD_LENGTH && popcount32 (bitmapOf (wordCodes w)) == WORD_LENGTH

/-- The pivot letters, `letters = {'e','t','a','o','i','n','s','h','r','l','d','u'}`. -/
def letters : List Char := ['e', 't', 'a', 'o', 'i', 'n', 's', 'h', 'r', 'l', 'd', 'u']

/-- `letter_bitmaps`: one single-bit bitmap `1 << (letter - 'a')` per pivot
letter, then `0xffff` pushed at the end as the catch-all entry (lines 89-93). -/
def letter_bitmaps : List Nat := (letters.map fun c => 2 ^ (c.toNat - 97)) ++ [0xffff]

/-- The bucket scan of lines 122-134: index of the first entry of the bitmap
list that intersects `bm`, or `none` when no entry intersects (the `break`
after the first hit makes the assignment unique). -/
def bucketFor (bm : Nat) : List Nat → Option Nat
  | [] => none
  | p :: ps => if bm &&& p ≠ 0 then some 0 else (bucketFor bm ps).map (· + 1)

/-- The per-bucket accumulation state: `word_bitmaps_letters` and
`unique_words_letters`, one (parallel) list per bucket (lines 94-97). -/
structure PartitionState where
  word_bitmaps_letters : List (List Nat)
  unique_words_letters : List (List String)

/-- Initial state: `letter_bitmaps.size()` empty buckets on both sides. -/
def initState : PartitionState :=
  ⟨List.replicate letter_bitmaps.length [], List.replicate letter_bitmaps.length []⟩

/-- The body of the corpus-building loop (lines 99-136): skip words whose
length is not 5, compute the bitmap, skip bitmaps without exactly 5 set bits,
then append `(bitmap, word)` to the first intersecting bucket unless that
bucket already holds the bitmap. -/
def processWord (st : PartitionState) (word : String) : PartitionState :=
  if word.length ≠ WORD_LENGTH then st
  else if popcount32 (bitmapOf (wordCodes word)) = WORD_LENGTH then
    match bucketFor (bitmapOf (wordCodes word)) letter_bitmaps with
    | none => st
    | some i =>
        if bitmapOf (wordCodes word) ∈ st.word_bitmaps_letters.getD i [] then st
        else
          ⟨st.word_bitmaps_letters.set i
             (st.word_bitmaps_letters.getD i [] ++ [bitmapOf (wordCodes word)]),
           st.unique_words_letters.set i
             (st.unique_words_letters.getD i [] ++ [word])⟩
  else st

/-- The whole corpus-building loop over the input word list. -/
def partitionWords (ws : List String) : PartitionState := ws.foldl processWord initState

/-- `word_bitmaps`: the bucket bitmap lists concatenated in bucket order
(lines 154-160). -/
def word_bitmaps (ws : List String) : List Nat :=
  (partitionWords ws).word_bitmaps_letters.flatten

/-- `unique_words`: the bucket word lists concatenated in bucket order. -/
def unique_words (ws : List String) : List String :=
  (partitionWords ws).unique_words_letters.flatten

/-- `number_of_words`: the sum of the bucket sizes (lines 138-142). -/
def number_of_words (ws : List String) : Nat :=
  ((partitionWords ws).word_bitmaps_letters.map List.length).sum

/-- `word_bitmaps_boundaries`: the running size of `word_bitmaps` pushed
before each bucket is appended, plus the final total (lines 150-161); as a
closed form, the prefix sums of the bucket sizes. -/
def word_bitmaps_boundaries (ws : List String) : List Nat :=
  List.scanl (· + ·) 0 ((partitionWords ws).word_bitmaps_letters.map List.length)

/-- `letter_bitmaps` as the search loop sees it: the last (catch-all) entry
reset to 0 at line 165, so that the catch-all section is never skipped. -/
def searchLetterBitmaps : List Nat := letter_bitmaps.set (letter_bitmaps.length - 1) 0

/-- The candidate-pruning scan of lines 188-204: for every bucket whose
(search-time) letter bitmap does not intersect `used`, scan the bucket's
index range, starting no earlier than `j + 1`, and keep the indices whose
bitmap is disjoint from `used`.  (The C++ also records
`candidate_bitmaps[p] = word_bitmaps[candidate_indices[p]]`, which we recover
from the index list.) -/
def candidate_indices (bms bnds lbs : List Nat) (j used : Nat) : List Nat :=
  (List.range (bnds.length - 1)).flatMap fun idx =>
    if lbs.getD idx 0 &&& used = 0 then
      (List.range' (max (j + 1) (bnds.getD idx 0))
          (bnds.getD (idx + 1) 0 - max (j + 1) (bnds.getD idx 0))).filter
        fun k => used &&& bms.getD k 0 == 0
    else []

/-- `word_bitmaps[k]` (out-of-range reads default to 0; the search never
performs one). -/
def wbD (ws : List String) (k : Nat) : Nat := (word_bitmaps ws).getD k 0

/-- `used_ij = word_bitmaps[i] | word_bitmaps[j]` (line 184). -/
def used2 (ws : List String) (i j : Nat) : Nat := wbD ws i ||| wbD ws j

/-- The candidate index list computed for the pair `(i, j)`. -/
def candIdx (ws : List String) (i j : Nat) : List Nat :=
  candidate_indices (word_bitmaps ws) (word_bitmaps_boundaries ws) searchLetterBitmaps j
    (used2 ws i j)

/-- `candidate_bitmaps[p]`, which the C++ stores alongside
`candidate_indices[p]` and always equals `word_bitmaps[candidate_indices[p]]`
(lines 199-200). -/
def cbm (ws : List String) (i j p : Nat) : Nat := wbD ws ((candIdx ws i j).getD p 0)

/-- `used_ijk = used_ij | candidate_bitmaps[a]` (line 213). -/
def used3 (ws : List String) (i j a : Nat) : Nat := used2 ws i j ||| cbm ws i j a

/-- `used_ijkl = used_ijk | candidate_bitmaps[b]` (line 218). -/
def used4 (ws : List String) (i j a b : Nat) : Nat := used3 ws i j a ||| cbm ws i j b

/-- The nested search of lines 178-234, emitting the index 5-tuples
`(i, j, candidate_indices[a], candidate_indices[b], candidate_indices[c])` in
loop order: outer pair loop with a disjointness test, candidate pruning,
early exit below `WORD_LENGTH - 2` candidates, and the triple candidate loop
with running-mask early exits. -/
def matchesIdx (ws : List String) : List (Nat × Nat × Nat × Nat × Nat) :=
  (List.range (number_of_words ws)).flatMap fun i =>
    (List.range' (i + 1) (number_of_words ws - (i + 1))).flatMap fun j =>
      if wbD ws i &&& wbD ws j = 0 then
        if (candIdx ws i j).length < WORD_LENGTH - 2 then []
        else
          (List.range (candIdx ws i j).length).flatMap fun a =>
            (List.range' (a + 1) ((candIdx ws i j).length - (a + 1))).flatMap fun b =>
              if used3 ws i j a &&& cbm ws i j b = 0 then
                (List.range' (b + 1) ((candIdx ws i j).length - (b + 1))).filterMap fun c =>
                  if used4 ws i j a b &&& cbm ws i j c = 0 then
                    some (i, j, (candIdx ws i j).getD a 0, (candIdx ws i j).getD b 0,
                      (candIdx ws i j).getD c 0)
                  else none
              else []
      else []

/-- The emitted matches as word 5-tuples: each index tuple is rendered with
`unique_words` exactly as the `matches.push_back` at lines 225-228. -/
def matchesWords (ws : List String) : List (List String) :=
  (matchesIdx ws).map fun t =>
    [(unique_words ws).getD t.1 "", (unique_words ws).getD t.2.1 "",
     (unique_words ws).getD t.2.2.1 "", (unique_words ws).getD t.2.2.2.1 "",
     (unique_words ws).getD t.2.2.2.2 ""]

/-- Brute-force reference search, following the specification's words: scan
all index 5-tuples `i < j < a < b < c` of the search index and keep exactly
those whose five bitmaps are pairwise disjoint. -/
def bruteForce (ws : List String) : List (Nat × Nat × Nat × Nat × Nat) :=
  (List.range (number_of_words ws)).flatMap fun i =>
    (List.range' (i + 1) (number_of_words ws - (i + 1))).flatMap fun j =>
      (List.range' (j + 1) (number_of_words ws - (j + 1))).flatMap fun a =>
        (List.range' (a + 1) (number_of_words ws - (a + 1))).flatMap fun b =>
          (List.range' (b + 1) (number_of_words ws - (b + 1))).filterMap fun c =>
            if wbD ws i &&& wbD ws j = 0 ∧ wbD ws i &&& wbD ws a = 0 ∧
                wbD ws i &&& wbD ws b = 0 ∧ wbD ws i &&& wbD ws c = 0 ∧
                wbD ws j &&& wbD ws a = 0 ∧ wbD ws j &&& wbD ws b = 0 ∧
                wbD ws j &&& wbD ws c = 0 ∧ wbD ws a &&& wbD ws b = 0 ∧
                wbD ws a &&& wbD ws c = 0 ∧ wbD ws b &&& wbD ws c = 0 then
              some (i, j, a, b, c)
            else none

/-- The shift amounts `c - 'a'` that the bitmap accumulate at lines 107-109
computes: one for every character of every word that passes the length-5
check, with no validation of the character range. -/
def shiftAmounts (ws : List String) : List Int :=
  (ws.filter fun w => w.length == WORD_LENGTH).flatMap fun w =>
    (wordCodes w).map fun c => (c : Int) - 97

/-- The set of five bitmaps underlying one emitted match. -/
def matchMaskSets (ws : List String) : List (Finset Nat) :=
  (matchesIdx ws).map fun t =>
    ([wbD ws t.1, wbD ws t.2.1, wbD ws t.2.2.1, wbD ws t.2.2.2.1,
      wbD ws t.2.2.2.2] : List Nat).toFinset

/-- Prefix sums of the bucket sizes: the value the boundary array holds at
position `idx`. -/
def bndF {α : Type} (L : List (List α)) (idx : Nat) : Nat := ((L.take idx).map List.length).sum

/-! ### Bitwise helper lemmas -/

/-- Two naturals have conjunction 0 exactly when no bit is set in both. -/
lemma and_eq_zero_iff {x y : Nat} :
    x &&& y = 0 ↔ ∀ i, x.testBit i = false ∨ y.testBit i = false := by
  constructor
  · intro h i
    have h' := congrArg (fun n => n.testBit i) h
    simp only [Nat.testBit_and, Nat.zero_testBit] at h'
    cases hx : x.testBit i with
    | false => exact Or.inl rfl
    | true => rw [hx] at h'; simp at h'; exact Or.inr h'
  · intro h
    apply Nat.eq_of_testBit_eq
    intro i
    simp only [Nat.testBit_and, Nat.zero_testBit]
    rcases h i with h' | h' <;> simp [h']

/-- Disjointness of bitmaps is symmetric. -/
lemma and_comm_zero {x y : Nat} (h : x &&& y = 0) : y &&& x = 0 := by
  rw [Nat.land_comm]; exact h

/-- A union is disjoint from `z` exactly when both parts are. -/
lemma or_and_eq_zero_iff {x y z : Nat} :
    (x ||| y) &&& z = 0 ↔ x &&& z = 0 ∧ y &&& z = 0 := by
  simp only [and_eq_zero_iff, Nat.testBit_or]
  constructor
  · intro h
    refine ⟨fun i => ?_, fun i => ?_⟩ <;> rcases h i with h' | h'
    · cases hx : x.testBit i with
      | false => exact Or.inl rfl
      | true => rw [hx] at h'; simp at h'
    · exact Or.inr h'
    · cases hy : y.testBit i with
      | false => exact Or.inl rfl
      | true => rw [hy] at h'; simp at h'
    · exact Or.inr h'
  · intro h i
    rcases h.1 i with h1 | h1
    · rcases h.2 i with h2 | h2
      · exact Or.inl (by rw [h1, h2]; rfl)
      · exact Or.inr h2
    · exact Or.inr h1

/-- Intersecting a single-bit bitmap means having that bit. -/
lemma testBit_of_and_two_pow_ne {x e : Nat} (h : x &&& 2 ^ e ≠ 0) : x.testBit e = true := by
  by_contra hbit
  apply h
  rw [and_eq_zero_iff]
  intro i
  by_cases hie : i = e
  · subst hie
    exact Or.inl (Bool.eq_false_iff.mpr hbit)
  · exact Or.inr (Nat.testBit_two_pow_of_ne fun he => hie he.symm)

/-- A single-bit bitmap whose bit is not set in `y` is disjoint from `y`. -/
lemma two_pow_and_eq_zero {y e : Nat} (h : y.testBit e = false) : 2 ^ e &&& y = 0 := by
  rw [and_eq_zero_iff]
  intro i
  by_cases hie : i = e
  · subst hie; exact Or.inr h
  · exact Or.inl (Nat.testBit_two_pow_of_ne fun he => hie he.symm)

/-- Counting a disjunction of two pointwise-exclusive predicates adds the counts. -/
lemma countP_or_of_exclusive {α : Type} (p q : α → Bool) :
    ∀ l : List α, (∀ a ∈ l, ¬(p a = true ∧ q a = true)) →
      l.countP (fun a => p a || q a) = l.countP p + l.countP q := by
  intro l
  induction l with
  | nil => intro _; rfl
  | cons a t ih =>
      intro h
      have ht := ih fun x hx => h x (List.mem_cons_of_mem a hx)
      have ha := h a (List.mem_cons_self a t)
      have hsplit : (if (p a || q a) = true then 1 else 0) =
          (if p a = true then 1 else 0) + (if q a = true then 1 else 0) := by
        cases hp : p a <;> cases hq : q a <;> simp_all
      simp only [List.countP_cons, ht, hsplit]
      omega

/-- Popcount is additive across disjoint bitmaps. -/
lemma popcount32_or {x y : Nat} (h : x &&& y = 0) :
    popcount32 (x ||| y) = popcount32 x + popcount32 y := by
  unfold popcount32
  have hcong : ((List.range 32).countP fun i => (x ||| y).testBit i) =
      (List.range 32).countP fun i => x.testBit i || y.testBit i := by
    apply List.countP_congr
    intro i _
    simp [Nat.testBit_or]
  rw [hcong]
  apply countP_or_of_exclusive
  rintro i - ⟨hx, hy⟩
  rcases and_eq_zero_iff.mp h i with h' | h'
  · rw [h'] at hx; exact Bool.noConfusion hx
  · rw [h'] at hy; exact Bool.noConfusion hy

/-- A bitmap with popcount32 equal to 5 is nonzero. -/
lemma ne_zero_of_popcount32 {x : Nat} (h : popcount32 x = WORD_LENGTH) : x ≠ 0 := by
  intro h0
  subst h0
  simp [popcount32, WORD_LENGTH] at h

/-! ### Helper lemmas on `getD`, `set` and buckets -/

/-- `getD` after `set` at the written index. -/
lemma getD_set_self {α : Type} (l : List α) (i : Nat) (x d : α) (h : i < l.length) :
    (l.set i x).getD i d = x := by
  rw [List.getD_eq_getElem _ _ (by simpa using h)]
  exact List.getElem_set_self _

/-- `getD` after `set` at a different index. -/
lemma getD_set_ne {α : Type} (l : List α) {i i' : Nat} (x d : α) (h : i ≠ i') :
    (l.set i x).getD i' d = l.getD i' d := by
  rcases Nat.lt_or_ge i' l.length with hlt | hge
  · rw [List.getD_eq_getElem _ _ (by simpa using hlt), List.getD_eq_getElem _ _ hlt]
    exact List.getElem_set_ne h _
  · rw [List.getD_eq_default _ _ (by simpa using hge), List.getD_eq_default _ _ hge]

/-- `getD` of a replicated list of empty lists is always the empty list. -/
lemma getD_replicate_nil {α : Type} (n idx : Nat) :
    (List.replicate n ([] : List α)).getD idx [] = [] := by
  rcases Nat.lt_or_ge idx n with hlt | hge
  · rw [List.getD_eq_getElem _ _ (by simpa using hlt)]
    simp
  · exact List.getD_eq_default _ _ (by simpa using hge)

/-- In-bounds `getD` values are members of the list. -/
lemma getD_mem_of_lt {α : Type} (l : List α) (k : Nat) (d : α) (h : k < l.length) :
    l.getD k d ∈ l := by
  rw [List.getD_eq_getElem _ _ h]
  exact List.getElem_mem h

/-- A `bucketFor` hit index is in range. -/
lemma bucketFor_some_lt {bm : Nat} :
    ∀ {l : List Nat} {i : Nat}, bucketFor bm l = some i → i < l.length := by
  intro l
  induction l with
  | nil => intro i h; simp [bucketFor] at h
  | cons p ps ih =>
      intro i h
      rw [bucketFor] at h
      split at h
      · cases h; simp
      · rw [Option.map_eq_some'] at h
        obtain ⟨i', hi', rfl⟩ := h
        have := ih hi'
        simp only [List.length_cons]
        omega

/-- The bitmap intersects the bucket entry that `bucketFor` selects. -/
lemma bucketFor_some_hit {bm : Nat} :
    ∀ {l : List Nat} {i : Nat}, bucketFor bm l = some i → bm &&& l.getD i 0 ≠ 0 := by
  intro l
  induction l with
  | nil => intro i h; simp [bucketFor] at h
  | cons p ps ih =>
      intro i h
      rw [bucketFor] at h
      split at h
      · cases h; simpa using (by assumption : bm &&& p ≠ 0)
      · rw [Option.map_eq_some'] at h
        obtain ⟨i', hi', rfl⟩ := h
        simpa [List.getD_cons_succ] using ih hi'

/-! ### Prefix sums of bucket sizes and flat indexing -/

/-- Prefix sums of bucket sizes at cons, successor index. -/
lemma bndF_cons_succ {α : Type} (a : List α) (t : List (List α)) (idx : Nat) :
    bndF (a :: t) (idx + 1) = a.length + bndF t idx := by
  simp [bndF, List.take_succ_cons]

/-- Stepping the prefix sum adds the size of one bucket. -/
lemma bndF_succ {α : Type} :
    ∀ (L : List (List α)) (idx : Nat), bndF L (idx + 1) = bndF L idx + (L.getD idx []).length := by
  intro L
  induction L with
  | nil => intro idx; simp [bndF]
  | cons a t ih =>
      intro idx
      cases idx with
      | zero => simp [bndF, List.take_succ_cons]
      | succ n =>
          rw [bndF_cons_succ, ih n, bndF_cons_succ]
          simp [List.getD_cons_succ]
          omega

/-- Prefix sums are monotone. -/
lemma bndF_mono {α : Type} (L : List (List α)) {idx idx' : Nat} (h : idx ≤ idx') :
    bndF L idx ≤ bndF L idx' := by
  induction idx', h using Nat.le_induction with
  | base => exact Nat.le_refl _
  | succ n hn ih => rw [bndF_succ]; omega

/-- Prefix sums never exceed the total size. -/
lemma bndF_le_sum {α : Type} (L : List (List α)) (idx : Nat) :
    bndF L idx ≤ (L.map List.length).sum := by
  conv_rhs => rw [← List.take_append_drop idx L]
  rw [List.map_append, List.sum_append]
  exact Nat.le_add_right _ _

/-- The full prefix sum is the total size. -/
lemma bndF_length {α : Type} (L : List (List α)) : bndF L L.length = (L.map List.length).sum := by
  simp [bndF, List.take_length]

/-- Reading the flattened list inside bucket `idx` reads that bucket. -/
lemma flatten_getD {α : Type} :
    ∀ (L : List (List α)) (idx off : Nat) (d : α), off < (L.getD idx []).length →
      L.flatten.getD (bndF L idx + off) d = (L.getD idx []).getD off d := by
  intro L
  induction L with
  | nil => intro idx off d h; simp [List.getD_nil] at h
  | cons a t ih =>
      intro idx off d h
      cases idx with
      | zero =>
          simp only [List.getD_cons_zero] at h ⊢
          have h0 : bndF (a :: t) 0 = 0 := by simp [bndF]
          rw [h0, List.flatten_cons, Nat.zero_add]
          exact List.getD_append _ _ _ _ h
      | succ n =>
          simp only [List.getD_cons_succ] at h ⊢
          rw [bndF_cons_succ, List.flatten_cons,
            List.getD_append_right _ _ _ _ (by omega)]
          have : a.length + bndF t n + off - a.length = bndF t n + off := by omega
          rw [this]
          exact ih n off d h

/-- Every position of the flattened list lies inside exactly one bucket
range; here we produce the bucket and the offset. -/
lemma flatten_index_decomp {α : Type} :
    ∀ (L : List (List α)) (k : Nat), k < L.flatten.length →
      ∃ idx, idx < L.length ∧ ∃ off, off < (L.getD idx []).length ∧ k = bndF L idx + off := by
  intro L
  induction L with
  | nil => intro k h; simp at h
  | cons a t ih =>
      intro k h
      rw [List.flatten_cons, List.length_append] at h
      rcases Nat.lt_or_ge k a.length with hlt | hge
      · exact ⟨0, by simp, k, by simpa using hlt, by simp [bndF]⟩
      · obtain ⟨idx, hidx, off, hoff, hk⟩ := ih (k - a.length) (by omega)
        exact ⟨idx + 1, by simpa using hidx, off, by simpa using hoff,
          by rw [bndF_cons_succ]; omega⟩

/-! ### Lemmas on `scanl` prefix sums (the boundary array) -/

/-- Element `idx` of a running-sum `scanl` is the initial value plus the
prefix sum. -/
lemma scanl_add_getD :
    ∀ (l : List Nat) (init idx : Nat), idx ≤ l.length →
      (List.scanl (· + ·) init l).getD idx 0 = init + (l.take idx).sum := by
  intro l
  induction l with
  | nil =>
      intro init idx h
      have h0 : idx = 0 := by simpa using h
      subst h0
      simp [List.scanl_nil]
  | cons a t ih =>
      intro init idx h
      cases idx with
      | zero => simp [List.scanl_cons]
      | succ n =>
          rw [List.scanl_cons]
          simp only [List.singleton_append, List.getD_cons_succ, List.take_succ_cons,
            List.sum_cons]
          rw [ih (init + a) n (by simpa using h)]
          omega

/-- Every element of a running-sum `scanl` is at least the initial value. -/
lemma le_of_mem_scanl_add :
    ∀ (l : List Nat) (init x : Nat), x ∈ List.scanl (· + ·) init l → init ≤ x := by
  intro l
  induction l with
  | nil => intro init x h; simp [List.scanl_nil] at h; omega
  | cons a t ih =>
      intro init x h
      rw [List.scanl_cons] at h
      simp only [List.singleton_append, List.mem_cons] at h
      rcases h with rfl | h
      · exact Nat.le_refl _
      · have := ih (init + a) x h
        omega

/-- A running-sum `scanl` over naturals is non-decreasing. -/
lemma scanl_add_pairwise_le :
    ∀ (l : List Nat) (init : Nat), List.Pairwise (· ≤ ·) (List.scanl (· + ·) init l) := by
  intro l
  induction l with
  | nil => intro init; simp [List.scanl_nil]
  | cons a t ih =>
      intro init
      rw [List.scanl_cons]
      simp only [List.singleton_append, List.pairwise_cons]
      exact ⟨fun x hx => le_trans (Nat.le_add_right _ _) (le_of_mem_scanl_add t (init + a) x hx),
        ih (init + a)⟩

/-! ### The partition invariant -/

/-- Unfolding of the two admission filters. -/
lemma isAdmitted_iff {w : String} :
    isAdmitted w = true ↔
      w.length = WORD_LENGTH ∧ popcount32 (bitmapOf (wordCodes w)) = WORD_LENGTH := by
  simp [isAdmitted]

/-- Invariant of the bucket-building loop after the words `processed` have
been consumed: bucket shapes, the bitmap/word alignment, the pivot
membership of every stored bitmap, popcounts, admission of stored words,
per-bucket freedom from duplicates, first-seen tracking, and completeness
(every admitted processed word with a bucket has its bitmap stored). -/
structure PInv (processed : List String) (st : PartitionState) : Prop where
  wlen : st.word_bitmaps_letters.length = letter_bitmaps.length
  ulen : st.unique_words_letters.length = letter_bitmaps.length
  aligned : ∀ idx, st.word_bitmaps_letters.getD idx [] =
      (st.unique_words_letters.getD idx []).map fun w => bitmapOf (wordCodes w)
  pivotHit : ∀ idx, ∀ bm ∈ st.word_bitmaps_letters.getD idx [],
      bucketFor bm letter_bitmaps = some idx
  pcFive : ∀ idx, ∀ bm ∈ st.word_bitmaps_letters.getD idx [],
      popcount32 bm = WORD_LENGTH
  admittedAll : ∀ idx, ∀ w ∈ st.unique_words_letters.getD idx [], isAdmitted w = true
  nodupBucket : ∀ idx, (st.word_bitmaps_letters.getD idx []).Nodup
  wordsFrom : ∀ idx, ∀ w ∈ st.unique_words_letters.getD idx [], w ∈ processed
  firstSeen : ∀ idx k, k < (st.word_bitmaps_letters.getD idx []).length →
      processed.find? (fun w => isAdmitted w &&
          (bitmapOf (wordCodes w) == (st.word_bitmaps_letters.getD idx []).getD k 0)) =
        some ((st.unique_words_letters.getD idx []).getD k "")
  complete : ∀ w ∈ processed, isAdmitted w = true →
      ∀ i, bucketFor (bitmapOf (wordCodes w)) letter_bitmaps = some i →
        bitmapOf (wordCodes w) ∈ st.word_bitmaps_letters.getD i []

/-- The invariant holds initially. -/
lemma pinv_init : PInv [] initState := by
  refine ⟨by simp [initState], by simp [initState], ?_, ?_, ?_, ?_, ?_, ?_, ?_, ?_⟩
  · intro idx; simp [initState, getD_replicate_nil]
  · intro idx bm hbm; rw [initState] at hbm; simp [getD_replicate_nil] at hbm
  · intro idx bm hbm; rw [initState] at hbm; simp [getD_replicate_nil] at hbm
  · intro idx w hw; rw [initState] at hw; simp [getD_replicate_nil] at hw
  · intro idx; simp [initState, getD_replicate_nil]
  · intro idx w hw; rw [initState] at hw; simp [getD_replicate_nil] at hw
  · intro idx k hk; rw [initState] at hk; simp [getD_replicate_nil] at hk
  · intro w hw; simp at hw

/-- Equation: words of the wrong length are skipped. -/
lemma processWord_reject_len {st : PartitionState} {word : String}
    (h : word.length ≠ WORD_LENGTH) : processWord st word = st := by
  rw [processWord, if_pos h]

/-- Equation: words whose bitmap popcount is not 5 are skipped. -/
lemma processWord_reject_pc {st : PartitionState} {word : String}
    (h1 : ¬word.length ≠ WORD_LENGTH)
    (h2 : popcount32 (bitmapOf (wordCodes word)) ≠ WORD_LENGTH) : processWord st word = st := by
  rw [processWord, if_neg h1, if_neg h2]

/-- Equation: words whose bitmap intersects no bucket entry are dropped. -/
lemma processWord_nobucket {st : PartitionState} {word : String}
    (h1 : ¬word.length ≠ WORD_LENGTH)
    (h2 : popcount32 (bitmapOf (wordCodes word)) = WORD_LENGTH)
    (h3 : bucketFor (bitmapOf (wordCodes word)) letter_bitmaps = none) :
    processWord st word = st := by
  rw [processWord, if_neg h1, if_pos h2, h3]

/-- Equation: a bitmap already present in its bucket is not stored again. -/
lemma processWord_dup {st : PartitionState} {word : String} {i : Nat}
    (h1 : ¬word.length ≠ WORD_LENGTH)
    (h2 : popcount32 (bitmapOf (wordCodes word)) = WORD_LENGTH)
    (h3 : bucketFor (bitmapOf (wordCodes word)) letter_bitmaps = some i)
    (h4 : bitmapOf (wordCodes word) ∈ st.word_bitmaps_letters.getD i []) :
    processWord st word = st := by
  rw [processWord, if_neg h1, if_pos h2, h3]
  simp only [if_pos h4]

/-- Equation: a fresh bitmap and its word are appended to bucket `i`. -/
lemma processWord_insert {st : PartitionState} {word : String} {i : Nat}
    (h1 : ¬word.length ≠ WORD_LENGTH)
    (h2 : popcount32 (bitmapOf (wordCodes word)) = WORD_LENGTH)
    (h3 : bucketFor (bitmapOf (wordCodes word)) letter_bitmaps = some i)
    (h4 : bitmapOf (wordCodes word) ∉ st.word_bitmaps_letters.getD i []) :
    processWord st word =
      ⟨st.word_bitmaps_letters.set i
         (st.word_bitmaps_letters.getD i [] ++ [bitmapOf (wordCodes word)]),
       st.unique_words_letters.set i
         (st.unique_words_letters.getD i [] ++ [word])⟩ := by
  rw [processWord, if_neg h1, if_pos h2, h3]
  simp only [if_neg h4]

/-- When a word is consumed without changing the state, and its own bucket
obligation already holds, the invariant extends over it. -/
lemma pinv_noop {processed : List String} {st : PartitionState} {word : String}
    (h : PInv processed st)
    (hc : isAdmitted word = true →
      ∀ i, bucketFor (bitmapOf (wordCodes word)) letter_bitmaps = some i →
        bitmapOf (wordCodes word) ∈ st.word_bitmaps_letters.getD i []) :
    PInv (processed ++ [word]) st := by
  refine ⟨h.wlen, h.ulen, h.aligned, h.pivotHit, h.pcFive, h.admittedAll, h.nodupBucket,
    ?_, ?_, ?_⟩
  · intro idx w hw
    exact List.mem_append_left _ (h.wordsFrom idx w hw)
  · intro idx k hk
    rw [List.find?_append, h.firstSeen idx k hk]
    rfl
  · intro w hw hadm i hbk
    rcases List.mem_append.mp hw with hw' | hw'
    · exact h.complete w hw' hadm i hbk
    · rw [List.mem_singleton] at hw'
      subst hw'
      exact hc hadm i hbk

/-- One step of the bucket-building loop preserves the invariant. -/
lemma pinv_step {processed : List String} {st : PartitionState} (word : String)
    (h : PInv processed st) : PInv (processed ++ [word]) (processWord st word) := by
  by_cases h1 : word.length ≠ WORD_LENGTH
  · rw [processWord_reject_len h1]
    refine pinv_noop h fun hadm i hbk => ?_
    exact absurd (isAdmitted_iff.mp hadm).1 h1
  by_cases h2 : popcount32 (bitmapOf (wordCodes word)) = WORD_LENGTH
  swap
  · rw [processWord_reject_pc h1 h2]
    refine pinv_noop h fun hadm i hbk => ?_
    exact absurd (isAdmitted_iff.mp hadm).2 h2
  rcases h3 : bucketFor (bitmapOf (wordCodes word)) letter_bitmaps with _ | i
  · rw [processWord_nobucket h1 h2 h3]
    refine pinv_noop h fun hadm i hbk => ?_
    rw [h3] at hbk
    exact Option.noConfusion hbk
  by_cases h4 : bitmapOf (wordCodes word) ∈ st.word_bitmaps_letters.getD i []
  · rw [processWord_dup h1 h2 h3 h4]
    refine pinv_noop h fun hadm i' hbk => ?_
    rw [h3] at hbk
    cases Option.some.inj hbk
    exact h4
  -- the insertion case
  rw [processWord_insert h1 h2 h3 h4]
  have hlen5 : word.length = WORD_LENGTH := by omega
  have hadmw : isAdmitted word = true := isAdmitted_iff.mpr ⟨hlen5, h2⟩
  have hiL : i < st.word_bitmaps_letters.length := by
    have h5 := bucketFor_some_lt h3
    have h6 := h.wlen
    omega
  have hiU : i < st.unique_words_letters.length := by
    have h5 := bucketFor_some_lt h3
    have h6 := h.ulen
    omega
  have hbLen : (st.word_bitmaps_letters.getD i []).length =
      (st.unique_words_letters.getD i []).length := by
    rw [h.aligned i, List.length_map]
  refine ⟨?_, ?_, ?_, ?_, ?_, ?_, ?_, ?_, ?_, ?_⟩
  · simp only [List.length_set]
    exact h.wlen
  · simp only [List.length_set]
    exact h.ulen
  · intro idx
    by_cases hidx : idx = i
    · subst hidx
      rw [getD_set_self _ _ _ _ hiL, getD_set_self _ _ _ _ hiU, List.map_append,
        ← h.aligned idx]
      rfl
    · rw [getD_set_ne _ _ _ fun he => hidx he.symm,
        getD_set_ne _ _ _ fun he => hidx he.symm]
      exact h.aligned idx
  · intro idx bm' hbm'
    by_cases hidx : idx = i
    · subst hidx
      rw [getD_set_self _ _ _ _ hiL] at hbm'
      rcases List.mem_append.mp hbm' with hold | hnew
      · exact h.pivotHit idx bm' hold
      · rw [List.mem_singleton] at hnew
        subst hnew
        exact h3
    · rw [getD_set_ne _ _ _ fun he => hidx he.symm] at hbm'
      exact h.pivotHit idx bm' hbm'
  · intro idx bm' hbm'
    by_cases hidx : idx = i
    · subst hidx
      rw [getD_set_self _ _ _ _ hiL] at hbm'
      rcases List.mem_append.mp hbm' with hold | hnew
      · exact h.pcFive idx bm' hold
      · rw [List.mem_singleton] at hnew
        subst hnew
        exact h2
    · rw [getD_set_ne _ _ _ fun he => hidx he.symm] at hbm'
      exact h.pcFive idx bm' hbm'
  · intro idx w hw
    by_cases hidx : idx = i
    · subst hidx
      rw [getD_set_self _ _ _ _ hiU] at hw
      rcases List.mem_append.mp hw with hold | hnew
      · exact h.admittedAll idx w hold
      · rw [List.mem_singleton] at hnew
        subst hnew
        exact hadmw
    · rw [getD_set_ne _ _ _ fun he => hidx he.symm] at hw
      exact h.admittedAll idx w hw
  · intro idx
    by_cases hidx : idx = i
    · subst hidx
      rw [getD_set_self _ _ _ _ hiL, List.nodup_append]
      refine ⟨h.nodupBucket idx, List.nodup_singleton _, ?_⟩
      intro a ha hb
      rw [List.mem_singleton] at hb
      subst hb
      exact h4 ha
    · rw [getD_set_ne _ _ _ fun he => hidx he.symm]
      exact h.nodupBucket idx
  · intro idx w hw
    by_cases hidx : idx = i
    · subst hidx
      rw [getD_set_self _ _ _ _ hiU] at hw
      rcases List.mem_append.mp hw with hold | hnew
      · exact List.mem_append_left _ (h.wordsFrom idx w hold)
      · rw [List.mem_singleton] at hnew
        subst hnew
        exact List.mem_append_right _ (List.mem_singleton_self _)
    · rw [getD_set_ne _ _ _ fun he => hidx he.symm] at hw
      exact List.mem_append_left _ (h.wordsFrom idx w hw)
  · intro idx k hk
    by_cases hidx : idx = i
    · subst hidx
      rw [getD_set_self _ _ _ _ hiL] at hk ⊢
      rw [getD_set_self _ _ _ _ hiU]
      rw [List.length_append, List.length_singleton] at hk
      rcases Nat.lt_or_ge k (st.word_bitmaps_letters.getD idx []).length with hklt | hkge
      · rw [List.getD_append _ _ _ _ hklt, List.getD_append _ _ _ _ (by omega)]
        rw [List.find?_append, h.firstSeen idx k hklt]
        rfl
      · have hkeq : k = (st.word_bitmaps_letters.getD idx []).length := by omega
        subst hkeq
        rw [List.getD_append_right _ _ _ _ (Nat.le_refl _), Nat.sub_self,
          List.getD_cons_zero]
        rw [List.getD_append_right _ _ _ _ (by omega)]
        have hz : (st.word_bitmaps_letters.getD idx []).length -
            (st.unique_words_letters.getD idx []).length = 0 := by omega
        rw [hz, List.getD_cons_zero]
        rw [List.find?_append]
        have hnone : processed.find? (fun w => isAdmitted w &&
            (bitmapOf (wordCodes w) == bitmapOf (wordCodes word))) = none := by
          rw [List.find?_eq_none]
          intro x hx hpx
          rw [Bool.and_eq_true, beq_iff_eq] at hpx
          have hbx : bucketFor (bitmapOf (wordCodes x)) letter_bitmaps = some idx := by
            rw [hpx.2]
            exact h3
          have hmem := h.complete x hx hpx.1 idx hbx
          rw [hpx.2] at hmem
          exact h4 hmem
        rw [hnone]
        have hp : (isAdmitted word &&
            (bitmapOf (wordCodes word) == bitmapOf (wordCodes word))) = true := by
          rw [hadmw, beq_self_eq_true]
          rfl
        have hone : List.find? (fun w => isAdmitted w &&
            (bitmapOf (wordCodes w) == bitmapOf (wordCodes word))) [word] = some word := by
          simp only [List.find?_cons, hp]
        rw [hone]
        rfl
    · rw [getD_set_ne _ _ _ fun he => hidx he.symm] at hk ⊢
      rw [getD_set_ne _ _ _ fun he => hidx he.symm]
      rw [List.find?_append, h.firstSeen idx k hk]
      rfl
  · intro w hw hadm i' hbk
    rcases List.mem_append.mp hw with hw' | hw'
    · have hold := h.complete w hw' hadm i' hbk
      by_cases hidx : i' = i
      · subst hidx
        rw [getD_set_self _ _ _ _ hiL]
        exact List.mem_append_left _ hold
      · rw [getD_set_ne _ _ _ fun he => hidx he.symm]
        exact hold
    · rw [List.mem_singleton] at hw'
      subst hw'
      rw [h3] at hbk
      cases Option.some.inj hbk
      rw [getD_set_self _ _ _ _ hiL]
      exact List.mem_append_right _ (List.mem_singleton_self _)

/-- The invariant carries through the whole fold. -/
lemma pinv_foldl :
    ∀ (rest processed : List String) (st : PartitionState),
      PInv processed st → PInv (processed ++ rest) (rest.foldl processWord st) := by
  intro rest
  induction rest with
  | nil =>
      intro processed st h
      simpa using h
  | cons wrd t ih =>
      intro processed st h
      have h' := pinv_step wrd h
      have h'' := ih (processed ++ [wrd]) _ h'
      simpa [List.append_assoc] using h''

/-- The invariant holds of the final partition state. -/
lemma pinv_partition (ws : List String) : PInv ws (partitionWords ws) := by
  have h := pinv_foldl ws [] initState pinv_init
  simpa [partitionWords] using h

/-! ### Global facts about the built search index -/

/-- `number_of_words` is the length of the flattened bitmap array. -/
lemma number_of_words_eq (ws : List String) :
    number_of_words ws = (word_bitmaps ws).length := by
  rw [number_of_words, word_bitmaps, List.length_flatten]

/-- The flat bitmap array is the pointwise encoding of the flat word array. -/
lemma wb_map_eq (ws : List String) :
    word_bitmaps ws = (unique_words ws).map fun w => bitmapOf (wordCodes w) := by
  have h := pinv_partition ws
  rw [word_bitmaps, unique_words, List.map_flatten]
  congr 1
  apply List.ext_getElem
  · rw [List.length_map, h.wlen, h.ulen]
  · intro n h1 h2
    rw [List.getElem_map]
    have ha := h.aligned n
    have hU : n < (partitionWords ws).unique_words_letters.length := by
      rw [List.length_map] at h2
      exact h2
    rw [List.getD_eq_getElem _ _ h1, List.getD_eq_getElem _ _ hU] at ha
    exact ha

/-- The flat word array has the same length as the flat bitmap array. -/
lemma uw_length (ws : List String) : (unique_words ws).length = number_of_words ws := by
  have h := congrArg List.length (wb_map_eq ws)
  rw [List.length_map] at h
  rw [← h, number_of_words_eq]

/-- Every stored bitmap has exactly five bits set. -/
lemma wb_pc5 (ws : List String) : ∀ bm ∈ word_bitmaps ws, popcount32 bm = WORD_LENGTH := by
  intro bm hbm
  have h := pinv_partition ws
  rw [word_bitmaps, List.mem_flatten] at hbm
  obtain ⟨l, hl, hbml⟩ := hbm
  obtain ⟨n, hn, hEq⟩ := List.mem_iff_getElem.mp hl
  exact h.pcFive n bm (by rw [List.getD_eq_getElem _ _ hn, hEq]; exact hbml)

/-- Every stored word passed both admission filters. -/
lemma uw_admitted (ws : List String) : ∀ w ∈ unique_words ws, isAdmitted w = true := by
  intro w hw
  have h := pinv_partition ws
  rw [unique_words, List.mem_flatten] at hw
  obtain ⟨l, hl, hwl⟩ := hw
  obtain ⟨n, hn, hEq⟩ := List.mem_iff_getElem.mp hl
  exact h.admittedAll n w (by rw [List.getD_eq_getElem _ _ hn, hEq]; exact hwl)

/-- No bitmap appears twice in the search index. -/
lemma wb_nodup (ws : List String) : (word_bitmaps ws).Nodup := by
  have h := pinv_partition ws
  rw [word_bitmaps, List.nodup_flatten]
  constructor
  · intro l hl
    obtain ⟨n, hn, hEq⟩ := List.mem_iff_getElem.mp hl
    have hnd := h.nodupBucket n
    rw [List.getD_eq_getElem _ _ hn, hEq] at hnd
    exact hnd
  · rw [List.pairwise_iff_getElem]
    intro n m hn hm hnm x hxn hxm
    have h1 := h.pivotHit n x (by rw [List.getD_eq_getElem _ _ hn]; exact hxn)
    have h2 := h.pivotHit m x (by rw [List.getD_eq_getElem _ _ hm]; exact hxm)
    rw [h1] at h2
    cases Option.some.inj h2
    omega

/-- Characterisation of the index bitmaps in terms of the input list: a
bitmap is stored exactly when some input word is admitted with that bitmap
and the bitmap intersects some bucket entry. -/
lemma wb_mem_iff (ws : List String) (m : Nat) :
    m ∈ word_bitmaps ws ↔
      ∃ w ∈ ws, isAdmitted w = true ∧ bitmapOf (wordCodes w) = m ∧
        (bucketFor m letter_bitmaps).isSome = true := by
  have h := pinv_partition ws
  constructor
  · intro hm
    rw [word_bitmaps, List.mem_flatten] at hm
    obtain ⟨l, hl, hml⟩ := hm
    obtain ⟨n, hn, hEq⟩ := List.mem_iff_getElem.mp hl
    have hml' : m ∈ (partitionWords ws).word_bitmaps_letters.getD n [] := by
      rw [List.getD_eq_getElem _ _ hn, hEq]
      exact hml
    have hpiv := h.pivotHit n m hml'
    rw [h.aligned n, List.mem_map] at hml'
    obtain ⟨w, hwmem, hwbm⟩ := hml'
    exact ⟨w, h.wordsFrom n w hwmem, h.admittedAll n w hwmem, hwbm, by rw [hpiv]; rfl⟩
  · rintro ⟨w, hwmem, hadm, hbm, hsome⟩
    obtain ⟨i, hi⟩ := Option.isSome_iff_exists.mp hsome
    have hmem := h.complete w hwmem hadm i (by rw [hbm]; exact hi)
    rw [hbm] at hmem
    have hiL : i < (partitionWords ws).word_bitmaps_letters.length := by
      have h5 := bucketFor_some_lt hi
      have h6 := h.wlen
      omega
    rw [word_bitmaps, List.mem_flatten]
    exact ⟨_, getD_mem_of_lt _ _ _ hiL, hmem⟩

/-- The boundary array holds the prefix sums of the bucket sizes. -/
lemma boundaries_getD (ws : List String) (idx : Nat)
    (h : idx ≤ (partitionWords ws).word_bitmaps_letters.length) :
    (word_bitmaps_boundaries ws).getD idx 0 =
      bndF (partitionWords ws).word_bitmaps_letters idx := by
  rw [word_bitmaps_boundaries, scanl_add_getD _ _ _ (by simpa using h), Nat.zero_add, bndF,
    List.map_take]

/-- The boundary array is one longer than the bucket list. -/
lemma boundaries_length (ws : List String) :
    (word_bitmaps_boundaries ws).length =
      (partitionWords ws).word_bitmaps_letters.length + 1 := by
  rw [word_bitmaps_boundaries, List.length_scanl, List.length_map]

/-- There are 13 buckets. -/
lemma wbl_length (ws : List String) :
    (partitionWords ws).word_bitmaps_letters.length = 13 :=
  (pinv_partition ws).wlen.trans rfl

/-- The search-time letter bitmap of the catch-all bucket is zero. -/
lemma slbs_getD_twelve : searchLetterBitmaps.getD 12 0 = 0 := by decide

/-- Every named-pivot search-time letter bitmap is the single-bit bitmap of
its pivot letter (all of which survive `set` of the last entry). -/
lemma slbs_two_pow (idx : Nat) (h : idx < 12) :
    ∃ e, searchLetterBitmaps.getD idx 0 = 2 ^ e ∧ letter_bitmaps.getD idx 0 = 2 ^ e := by
  interval_cases idx
  · exact ⟨4, by decide, by decide⟩
  · exact ⟨19, by decide, by decide⟩
  · exact ⟨0, by decide, by decide⟩
  · exact ⟨14, by decide, by decide⟩
  · exact ⟨8, by decide, by decide⟩
  · exact ⟨13, by decide, by decide⟩
  · exact ⟨18, by decide, by decide⟩
  · exact ⟨7, by decide, by decide⟩
  · exact ⟨17, by decide, by decide⟩
  · exact ⟨11, by decide, by decide⟩
  · exact ⟨3, by decide, by decide⟩
  · exact ⟨20, by decide, by decide⟩

/-! ### Characterisation of the candidate pruning -/

/-- The pruned candidate list contains exactly the indices past `j` whose
bitmap is disjoint from the accumulated mask: pruned buckets cannot contain
such an index, because each of their entries holds the pruned pivot letter. -/
lemma mem_candidate_indices (ws : List String) (j used k : Nat) :
    k ∈ candidate_indices (word_bitmaps ws) (word_bitmaps_boundaries ws) searchLetterBitmaps j
        used ↔
      j < k ∧ k < number_of_words ws ∧ used &&& (word_bitmaps ws).getD k 0 = 0 := by
  have h := pinv_partition ws
  have hL13 := wbl_length ws
  have hblen := boundaries_length ws
  constructor
  · intro hmem
    rw [candidate_indices, List.mem_flatMap] at hmem
    obtain ⟨idx, hidxmem, hk⟩ := hmem
    rw [List.mem_range] at hidxmem
    rcases Decidable.em (searchLetterBitmaps.getD idx 0 &&& used = 0) with hskip | hskip
    · rw [if_pos hskip, List.mem_filter, List.mem_range'_1] at hk
      obtain ⟨⟨hk1, hk2⟩, hdisj⟩ := hk
      rw [beq_iff_eq] at hdisj
      have e1 := boundaries_getD ws idx (by omega)
      have e2 := boundaries_getD ws (idx + 1) (by omega)
      rw [e1] at hk1
      rw [e1, e2] at hk2
      have hle : bndF (partitionWords ws).word_bitmaps_letters (idx + 1) ≤
          number_of_words ws := by
        rw [number_of_words]
        exact bndF_le_sum _ _
      exact ⟨by omega, by omega, hdisj⟩
    · rw [if_neg hskip] at hk
      simp at hk
  · rintro ⟨hjk, hkn, hdisj⟩
    rw [number_of_words_eq, word_bitmaps] at hkn
    obtain ⟨idx, hidx, off, hoff, rfl⟩ := flatten_index_decomp _ k hkn
    have hbm_eq : (word_bitmaps ws).getD
        (bndF (partitionWords ws).word_bitmaps_letters idx + off) 0 =
        ((partitionWords ws).word_bitmaps_letters.getD idx []).getD off 0 := by
      rw [word_bitmaps]
      exact flatten_getD _ idx off 0 hoff
    have hbm_mem : ((partitionWords ws).word_bitmaps_letters.getD idx []).getD off 0 ∈
        (partitionWords ws).word_bitmaps_letters.getD idx [] :=
      getD_mem_of_lt _ _ _ hoff
    have hpiv := h.pivotHit idx _ hbm_mem
    have hhit := bucketFor_some_hit hpiv
    rw [hbm_eq] at hdisj
    have hskip : searchLetterBitmaps.getD idx 0 &&& used = 0 := by
      rcases Nat.lt_or_ge idx 12 with h12 | h12
      · obtain ⟨e, he1, he2⟩ := slbs_two_pow idx h12
        rw [he2] at hhit
        have hbit := testBit_of_and_two_pow_ne hhit
        have hused : used.testBit e = false := by
          rcases and_eq_zero_iff.mp hdisj e with h' | h'
          · exact h'
          · rw [hbit] at h'
            exact Bool.noConfusion h'
        rw [he1]
        exact two_pow_and_eq_zero hused
      · have h12' : idx = 12 := by omega
        subst h12'
        rw [slbs_getD_twelve]
        exact Nat.zero_and used
    rw [candidate_indices, List.mem_flatMap]
    refine ⟨idx, by rw [List.mem_range]; omega, ?_⟩
    rw [if_pos hskip, List.mem_filter, List.mem_range'_1]
    have e1 := boundaries_getD ws idx (by omega)
    have e2 := boundaries_getD ws (idx + 1) (by omega)
    rw [e1, e2]
    have hstep := bndF_succ (partitionWords ws).word_bitmaps_letters idx
    refine ⟨⟨by omega, by omega⟩, ?_⟩
    rw [beq_iff_eq, hbm_eq]
    exact hdisj

/-- Bounds on the indices contributed by one bucket section of the scan. -/
lemma cand_body_bounds (ws : List String) (j used idx k : Nat) (hidx : idx < 13)
    (hk : k ∈ (if searchLetterBitmaps.getD idx 0 &&& used = 0 then
        (List.range' (max (j + 1) ((word_bitmaps_boundaries ws).getD idx 0))
            ((word_bitmaps_boundaries ws).getD (idx + 1) 0 -
              max (j + 1) ((word_bitmaps_boundaries ws).getD idx 0))).filter
          fun k => used &&& (word_bitmaps ws).getD k 0 == 0
      else [])) :
    bndF (partitionWords ws).word_bitmaps_letters idx ≤ k ∧
      k < bndF (partitionWords ws).word_bitmaps_letters (idx + 1) := by
  have hL13 := wbl_length ws
  split at hk
  · rw [List.mem_filter, List.mem_range'_1] at hk
    obtain ⟨⟨hk1, hk2⟩, _⟩ := hk
    rw [boundaries_getD ws idx (by omega)] at hk1 hk2
    rw [boundaries_getD ws (idx + 1) (by omega)] at hk2
    exact ⟨by omega, by omega⟩
  · simp at hk

/-- The candidate list is strictly increasing: sections are scanned in
boundary order and each section is an increasing range. -/
lemma cand_pairwise (ws : List String) (j used : Nat) :
    List.Pairwise (· < ·)
      (candidate_indices (word_bitmaps ws) (word_bitmaps_boundaries ws) searchLetterBitmaps j
        used) := by
  have hL13 := wbl_length ws
  have hblen := boundaries_length ws
  rw [candidate_indices, List.pairwise_flatMap]
  refine ⟨?_, ?_⟩
  · intro idx hidx
    split
    · exact List.Pairwise.sublist (List.filter_sublist _) (List.pairwise_lt_range' _ _)
    · exact List.Pairwise.nil
  · refine List.Pairwise.imp_of_mem ?_
      (List.pairwise_lt_range ((word_bitmaps_boundaries ws).length - 1))
    intro idx1 idx2 h1mem h2mem hlt x hx y hy
    rw [List.mem_range] at h1mem h2mem
    have hb1 := cand_body_bounds ws j used idx1 x (by omega) hx
    have hb2 := cand_body_bounds ws j used idx2 y (by omega) hy
    have hmono : bndF (partitionWords ws).word_bitmaps_letters (idx1 + 1) ≤
        bndF (partitionWords ws).word_bitmaps_letters idx2 := bndF_mono _ (by omega)
    omega

/-! ### Sorted-list position/value conversions -/

/-- In a strictly increasing list, later positions hold larger values. -/
lemma getD_lt_getD_of_pairwise {l : List Nat} (h : List.Pairwise (· < ·) l) {a b : Nat}
    (hb : b < l.length) (hab : a < b) : l.getD a 0 < l.getD b 0 := by
  have ha : a < l.length := by omega
  rw [List.getD_eq_getElem _ _ ha, List.getD_eq_getElem _ _ hb]
  exact List.pairwise_iff_getElem.mp h a b ha hb hab

/-- In a strictly increasing list, larger values sit at later positions. -/
lemma pos_lt_of_getD_lt {l : List Nat} (h : List.Pairwise (· < ·) l) {a b : Nat}
    (ha : a < l.length) (hb : b < l.length) (hv : l.getD a 0 < l.getD b 0) : a < b := by
  rcases Nat.lt_trichotomy a b with hab | hab | hab
  · exact hab
  · subst hab
    omega
  · have := getD_lt_getD_of_pairwise h ha hab
    omega

/-- Membership through `getD` at an in-range position. -/
lemma mem_iff_getD {l : List Nat} {x : Nat} :
    x ∈ l ↔ ∃ a, a < l.length ∧ l.getD a 0 = x := by
  rw [List.mem_iff_getElem]
  constructor
  · rintro ⟨n, hn, rfl⟩
    exact ⟨n, hn, List.getD_eq_getElem _ _ hn⟩
  · rintro ⟨n, hn, hEq⟩
    exact ⟨n, hn, by rw [← List.getD_eq_getElem _ _ hn]; exact hEq⟩

/-! ### Characterisation of the emitted matches -/

/-- Candidate membership, with the pair mask split into its two parts. -/
lemma mem_candIdx_iff (ws : List String) (i j k : Nat) :
    k ∈ candIdx ws i j ↔
      j < k ∧ k < number_of_words ws ∧
        wbD ws i &&& wbD ws k = 0 ∧ wbD ws j &&& wbD ws k = 0 := by
  rw [candIdx, mem_candidate_indices]
  constructor
  · rintro ⟨h1, h2, h3⟩
    have h3' : (wbD ws i ||| wbD ws j) &&& wbD ws k = 0 := h3
    obtain ⟨ha, hb⟩ := or_and_eq_zero_iff.mp h3'
    exact ⟨h1, h2, ha, hb⟩
  · rintro ⟨h1, h2, h3, h4⟩
    exact ⟨h1, h2, or_and_eq_zero_iff.mpr ⟨h3, h4⟩⟩

/-- The candidate list for a pair is strictly increasing. -/
lemma candIdx_pairwise (ws : List String) (i j : Nat) :
    List.Pairwise (· < ·) (candIdx ws i j) :=
  cand_pairwise ws j (used2 ws i j)

/-- A 5-tuple is emitted by the pruned search exactly when its indices are
strictly increasing, in range, and its five bitmaps are pairwise disjoint. -/
lemma mem_matchesIdx (ws : List String) (i j x y z : Nat) :
    (i, j, x, y, z) ∈ matchesIdx ws ↔
      i < j ∧ j < x ∧ x < y ∧ y < z ∧ z < number_of_words ws ∧
      wbD ws i &&& wbD ws j = 0 ∧ wbD ws i &&& wbD ws x = 0 ∧ wbD ws i &&& wbD ws y = 0 ∧
      wbD ws i &&& wbD ws z = 0 ∧ wbD ws j &&& wbD ws x = 0 ∧ wbD ws j &&& wbD ws y = 0 ∧
      wbD ws j &&& wbD ws z = 0 ∧ wbD ws x &&& wbD ws y = 0 ∧ wbD ws x &&& wbD ws z = 0 ∧
      wbD ws y &&& wbD ws z = 0 := by
  constructor
  · intro hmem
    rw [matchesIdx, List.mem_flatMap] at hmem
    obtain ⟨i', hi', hmem⟩ := hmem
    rw [List.mem_flatMap] at hmem
    obtain ⟨j', hj', hmem⟩ := hmem
    rw [List.mem_range] at hi'
    rw [List.mem_range'_1] at hj'
    rcases Decidable.em (wbD ws i' &&& wbD ws j' = 0) with hij | hij
    swap
    · rw [if_neg hij] at hmem
      simp at hmem
    rw [if_pos hij] at hmem
    rcases Decidable.em ((candIdx ws i' j').length < WORD_LENGTH - 2) with hsmall | hsmall
    · rw [if_pos hsmall] at hmem
      simp at hmem
    rw [if_neg hsmall] at hmem
    rw [List.mem_flatMap] at hmem
    obtain ⟨a, ha, hmem⟩ := hmem
    rw [List.mem_range] at ha
    rw [List.mem_flatMap] at hmem
    obtain ⟨b, hb, hmem⟩ := hmem
    rw [List.mem_range'_1] at hb
    rcases Decidable.em (used3 ws i' j' a &&& cbm ws i' j' b = 0) with h3ab | h3ab
    swap
    · rw [if_neg h3ab] at hmem
      simp at hmem
    rw [if_pos h3ab] at hmem
    rw [List.mem_filterMap] at hmem
    obtain ⟨c, hc, hmem⟩ := hmem
    rw [List.mem_range'_1] at hc
    rcases Decidable.em (used4 ws i' j' a b &&& cbm ws i' j' c = 0) with h4c | h4c
    swap
    · rw [if_neg h4c] at hmem
      simp at hmem
    rw [if_pos h4c, Option.some.injEq, Prod.mk.injEq, Prod.mk.injEq, Prod.mk.injEq,
      Prod.mk.injEq] at hmem
    obtain ⟨hii, hjj, hxa, hyb, hzc⟩ := hmem
    subst hii
    subst hjj
    have ham : a < (candIdx ws i' j').length := ha
    have hbm : b < (candIdx ws i' j').length := by omega
    have hcm : c < (candIdx ws i' j').length := by omega
    have hpw := candIdx_pairwise ws i' j'
    have hx_mem : x ∈ candIdx ws i' j' := by
      rw [← hxa]
      exact getD_mem_of_lt _ _ _ ham
    have hy_mem : y ∈ candIdx ws i' j' := by
      rw [← hyb]
      exact getD_mem_of_lt _ _ _ hbm
    have hz_mem : z ∈ candIdx ws i' j' := by
      rw [← hzc]
      exact getD_mem_of_lt _ _ _ hcm
    obtain ⟨hjx, hxn, hIX, hJX⟩ := (mem_candIdx_iff ws i' j' x).mp hx_mem
    obtain ⟨hjy, hyn, hIY', hJY'⟩ := (mem_candIdx_iff ws i' j' y).mp hy_mem
    obtain ⟨hjz, hzn, hIZ', hJZ'⟩ := (mem_candIdx_iff ws i' j' z).mp hz_mem
    have hxy : x < y := by
      rw [← hxa, ← hyb]
      exact getD_lt_getD_of_pairwise hpw hbm (by omega)
    have hyz : y < z := by
      rw [← hyb, ← hzc]
      exact getD_lt_getD_of_pairwise hpw hcm (by omega)
    simp only [used4, used3, used2, cbm, hxa, hyb, hzc] at h3ab h4c
    obtain ⟨h2y, hXY⟩ := or_and_eq_zero_iff.mp h3ab
    obtain ⟨h3z, hYZ⟩ := or_and_eq_zero_iff.mp h4c
    obtain ⟨h2z, hXZ⟩ := or_and_eq_zero_iff.mp h3z
    obtain ⟨hIZ, hJZ⟩ := or_and_eq_zero_iff.mp h2z
    obtain ⟨hIY, hJY⟩ := or_and_eq_zero_iff.mp h2y
    exact ⟨by omega, hjx, hxy, hyz, hzn, hij, hIX, hIY, hIZ, hJX, hJY, hJZ, hXY, hXZ, hYZ⟩
  · rintro ⟨hij', hjx, hxy, hyz, hzn, hIJ, hIX, hIY, hIZ, hJX, hJY, hJZ, hXY, hXZ, hYZ⟩
    have hx_mem : x ∈ candIdx ws i j :=
      (mem_candIdx_iff ws i j x).mpr ⟨hjx, by omega, hIX, hJX⟩
    have hy_mem : y ∈ candIdx ws i j :=
      (mem_candIdx_iff ws i j y).mpr ⟨by omega, by omega, hIY, hJY⟩
    have hz_mem : z ∈ candIdx ws i j :=
      (mem_candIdx_iff ws i j z).mpr ⟨by omega, hzn, hIZ, hJZ⟩
    obtain ⟨a, ham, hxa⟩ := mem_iff_getD.mp hx_mem
    obtain ⟨b, hbm, hyb⟩ := mem_iff_getD.mp hy_mem
    obtain ⟨c, hcm, hzc⟩ := mem_iff_getD.mp hz_mem
    have hpw := candIdx_pairwise ws i j
    have hab : a < b := pos_lt_of_getD_lt hpw ham hbm (by rw [hxa, hyb]; exact hxy)
    have hbc : b < c := pos_lt_of_getD_lt hpw hbm hcm (by rw [hyb, hzc]; exact hyz)
    have hcbm_a : cbm ws i j a = wbD ws x := by rw [cbm, hxa]
    have hcbm_b : cbm ws i j b = wbD ws y := by rw [cbm, hyb]
    have hcbm_c : cbm ws i j c = wbD ws z := by rw [cbm, hzc]
    have h3ab : used3 ws i j a &&& cbm ws i j b = 0 := by
      rw [used3, used2, hcbm_a, hcbm_b]
      exact or_and_eq_zero_iff.mpr ⟨or_and_eq_zero_iff.mpr ⟨hIY, hJY⟩, hXY⟩
    have h4c : used4 ws i j a b &&& cbm ws i j c = 0 := by
      rw [used4, used3, used2, hcbm_a, hcbm_b, hcbm_c]
      exact or_and_eq_zero_iff.mpr
        ⟨or_and_eq_zero_iff.mpr ⟨or_and_eq_zero_iff.mpr ⟨hIZ, hJZ⟩, hXZ⟩, hYZ⟩
    rw [matchesIdx, List.mem_flatMap]
    refine ⟨i, by rw [List.mem_range]; omega, ?_⟩
    rw [List.mem_flatMap]
    refine ⟨j, by rw [List.mem_range'_1]; omega, ?_⟩
    rw [if_pos hIJ]
    rw [if_neg (by simp only [WORD_LENGTH]; omega :
      ¬(candIdx ws i j).length < WORD_LENGTH - 2)]
    rw [List.mem_flatMap]
    refine ⟨a, by rw [List.mem_range]; omega, ?_⟩
    rw [List.mem_flatMap]
    refine ⟨b, by rw [List.mem_range'_1]; omega, ?_⟩
    rw [if_pos h3ab]
    rw [List.mem_filterMap]
    refine ⟨c, by rw [List.mem_range'_1]; omega, ?_⟩
    rw [if_pos h4c, hxa, hyb, hzc]

/-- A 5-tuple is produced by the brute-force scan exactly under the same
conditions. -/
lemma mem_bruteForce (ws : List String) (i j x y z : Nat) :
    (i, j, x, y, z) ∈ bruteForce ws ↔
      i < j ∧ j < x ∧ x < y ∧ y < z ∧ z < number_of_words ws ∧
      wbD ws i &&& wbD ws j = 0 ∧ wbD ws i &&& wbD ws x = 0 ∧ wbD ws i &&& wbD ws y = 0 ∧
      wbD ws i &&& wbD ws z = 0 ∧ wbD ws j &&& wbD ws x = 0 ∧ wbD ws j &&& wbD ws y = 0 ∧
      wbD ws j &&& wbD ws z = 0 ∧ wbD ws x &&& wbD ws y = 0 ∧ wbD ws x &&& wbD ws z = 0 ∧
      wbD ws y &&& wbD ws z = 0 := by
  constructor
  · intro hmem
    rw [bruteForce, List.mem_flatMap] at hmem
    obtain ⟨i', hi', hmem⟩ := hmem
    rw [List.mem_flatMap] at hmem
    obtain ⟨j', hj', hmem⟩ := hmem
    rw [List.mem_flatMap] at hmem
    obtain ⟨a', ha', hmem⟩ := hmem
    rw [List.mem_flatMap] at hmem
    obtain ⟨b', hb', hmem⟩ := hmem
    rw [List.mem_filterMap] at hmem
    obtain ⟨c', hc', hmem⟩ := hmem
    rcases Decidable.em (wbD ws i' &&& wbD ws j' = 0 ∧ wbD ws i' &&& wbD ws a' = 0 ∧
        wbD ws i' &&& wbD ws b' = 0 ∧ wbD ws i' &&& wbD ws c' = 0 ∧
        wbD ws j' &&& wbD ws a' = 0 ∧ wbD ws j' &&& wbD ws b' = 0 ∧
        wbD ws j' &&& wbD ws c' = 0 ∧ wbD ws a' &&& wbD ws b' = 0 ∧
        wbD ws a' &&& wbD ws c' = 0 ∧ wbD ws b' &&& wbD ws c' = 0) with hcond | hcond
    swap
    · rw [if_neg hcond] at hmem
      simp at hmem
    rw [if_pos hcond, Option.some.injEq, Prod.mk.injEq, Prod.mk.injEq, Prod.mk.injEq,
      Prod.mk.injEq] at hmem
    obtain ⟨hii, hjj, haa, hbb, hcc⟩ := hmem
    subst hii
    subst hjj
    subst haa
    subst hbb
    subst hcc
    rw [List.mem_range] at hi'
    rw [List.mem_range'_1] at hj' ha' hb' hc'
    obtain ⟨c1, c2, c3, c4, c5, c6, c7, c8, c9, c10⟩ := hcond
    exact ⟨by omega, by omega, by omega, by omega, by omega,
      c1, c2, c3, c4, c5, c6, c7, c8, c9, c10⟩
  · rintro ⟨hij', hjx, hxy, hyz, hzn, hIJ, hIX, hIY, hIZ, hJX, hJY, hJZ, hXY, hXZ, hYZ⟩
    rw [bruteForce, List.mem_flatMap]
    refine ⟨i, by rw [List.mem_range]; omega, ?_⟩
    rw [List.mem_flatMap]
    refine ⟨j, by rw [List.mem_range'_1]; omega, ?_⟩
    rw [List.mem_flatMap]
    refine ⟨x, by rw [List.mem_range'_1]; omega, ?_⟩
    rw [List.mem_flatMap]
    refine ⟨y, by rw [List.mem_range'_1]; omega, ?_⟩
    rw [List.mem_filterMap]
    refine ⟨z, by rw [List.mem_range'_1]; omega, ?_⟩
    rw [if_pos ⟨hIJ, hIX, hIY, hIZ, hJX, hJY, hJZ, hXY, hXZ, hYZ⟩]

/-! ### The mask 5-sets of the emitted matches -/

/-- A bitmap read at an in-range index is a member of the index. -/
lemma wbD_mem (ws : List String) {k : Nat} (h : k < number_of_words ws) :
    wbD ws k ∈ word_bitmaps ws := by
  rw [number_of_words_eq] at h
  exact getD_mem_of_lt _ _ _ h

/-- An in-range index bitmap is nonzero. -/
lemma wbD_ne_zero (ws : List String) {k : Nat} (h : k < number_of_words ws) :
    wbD ws k ≠ 0 :=
  ne_zero_of_popcount32 (wb_pc5 ws _ (wbD_mem ws h))

/-- Distinct because disjoint: a nonzero bitmap differs from anything it is
disjoint from. -/
lemma ne_of_disjoint_nonzero {x y : Nat} (hx : x ≠ 0) (hd : x &&& y = 0) : x ≠ y := by
  intro h
  subst h
  rw [Nat.and_self] at hd
  exact hx hd

/-- A list of length five is an explicit five-element list. -/
lemma length_eq_five {α : Type} {l : List α} (h : l.length = 5) :
    ∃ a b c d e, l = [a, b, c, d, e] := by
  rcases l with _ | ⟨a, l⟩
  · simp at h
  rcases l with _ | ⟨b, l⟩
  · simp at h
  rcases l with _ | ⟨c, l⟩
  · simp at h
  rcases l with _ | ⟨d, l⟩
  · simp at h
  rcases l with _ | ⟨e, l⟩
  · simp at h
  rcases l with _ | ⟨f, l⟩
  · exact ⟨a, b, c, d, e, rfl⟩
  · simp at h

/-- Index bitmap membership only depends on the input list up to
permutation. -/
lemma wb_mem_perm {ws1 ws2 : List String} (h : ws1.Perm ws2) (m : Nat) :
    m ∈ word_bitmaps ws1 ↔ m ∈ word_bitmaps ws2 := by
  rw [wb_mem_iff, wb_mem_iff]
  constructor
  · rintro ⟨w, hw, rest⟩
    exact ⟨w, h.mem_iff.mp hw, rest⟩
  · rintro ⟨w, hw, rest⟩
    exact ⟨w, h.mem_iff.mpr hw, rest⟩

/-- Distinct in-range positions carry distinct bitmaps. -/
lemma wbD_inj (ws : List String) {u v : Nat} (hu : u < number_of_words ws)
    (hv : v < number_of_words ws) (h : wbD ws u = wbD ws v) : u = v := by
  rw [number_of_words_eq] at hu hv
  have hEq' : (word_bitmaps ws)[u] = (word_bitmaps ws)[v] := by
    rw [← List.getD_eq_getElem _ 0 hu, ← List.getD_eq_getElem _ 0 hv]
    exact h
  exact ((wb_nodup ws).getElem_inj_iff).mp hEq'

/-- A finset is the mask set of some emitted match exactly when it is a
5-element set of index bitmaps that are pairwise disjoint. -/
lemma mem_matchMaskSets_iff (ws : List String) (S : Finset Nat) :
    S ∈ matchMaskSets ws ↔
      S.card = 5 ∧ (∀ m ∈ S, m ∈ word_bitmaps ws) ∧
        ∀ m ∈ S, ∀ m' ∈ S, m ≠ m' → m &&& m' = 0 := by
  constructor
  · intro hS
    rw [matchMaskSets, List.mem_map] at hS
    obtain ⟨t, ht, hSeq⟩ := hS
    obtain ⟨i, j, x, y, z⟩ := t
    dsimp only at hSeq
    rw [mem_matchesIdx] at ht
    obtain ⟨h1, h2, h3, h4, h5, d1, d2, d3, d4, d5, d6, d7, d8, d9, d10⟩ := ht
    have hpairD : ([wbD ws i, wbD ws j, wbD ws x, wbD ws y, wbD ws z] : List Nat).Pairwise
        (fun u v => u &&& v = 0) := by
      refine List.Pairwise.cons ?_ (List.Pairwise.cons ?_ (List.Pairwise.cons ?_
        (List.Pairwise.cons ?_ (List.pairwise_singleton _ _))))
      · intro v hv
        simp only [List.mem_cons, List.mem_singleton, List.not_mem_nil, or_false] at hv
        rcases hv with rfl | rfl | rfl | rfl
        exacts [d1, d2, d3, d4]
      · intro v hv
        simp only [List.mem_cons, List.mem_singleton, List.not_mem_nil, or_false] at hv
        rcases hv with rfl | rfl | rfl
        exacts [d5, d6, d7]
      · intro v hv
        simp only [List.mem_cons, List.mem_singleton, List.not_mem_nil, or_false] at hv
        rcases hv with rfl | rfl
        exacts [d8, d9]
      · intro v hv
        simp only [List.mem_singleton] at hv
        subst hv
        exact d10
    have hmemwb : ∀ m ∈ ([wbD ws i, wbD ws j, wbD ws x, wbD ws y, wbD ws z] : List Nat),
        m ∈ word_bitmaps ws := by
      intro m hm
      simp only [List.mem_cons, List.mem_singleton, List.not_mem_nil, or_false] at hm
      rcases hm with rfl | rfl | rfl | rfl | rfl
      · exact wbD_mem ws (by omega)
      · exact wbD_mem ws (by omega)
      · exact wbD_mem ws (by omega)
      · exact wbD_mem ws (by omega)
      · exact wbD_mem ws (by omega)
    have hnd : ([wbD ws i, wbD ws j, wbD ws x, wbD ws y, wbD ws z] : List Nat).Nodup := by
      refine List.Pairwise.imp_of_mem ?_ hpairD
      intro u v hu _ hr
      exact ne_of_disjoint_nonzero
        (ne_zero_of_popcount32 (wb_pc5 ws u (hmemwb u hu))) hr
    refine ⟨?_, ?_, ?_⟩
    · rw [← hSeq, List.toFinset_card_of_nodup hnd]
      rfl
    · intro m hm
      rw [← hSeq, List.mem_toFinset] at hm
      exact hmemwb m hm
    · intro m hm m' hm' hne
      rw [← hSeq, List.mem_toFinset] at hm hm'
      exact List.Pairwise.forall (fun u v hr => and_comm_zero hr) hpairD hm hm' hne
  · rintro ⟨hcard, hmem, hdisj⟩
    have hPnd : ((List.range (number_of_words ws)).filter
        fun k => decide (wbD ws k ∈ S)).Nodup :=
      List.Nodup.filter _ (List.nodup_range _)
    have hPpw : List.Pairwise (· < ·) ((List.range (number_of_words ws)).filter
        fun k => decide (wbD ws k ∈ S)) :=
      List.Pairwise.sublist (List.filter_sublist _) (List.pairwise_lt_range _)
    have hPlt : ∀ k ∈ (List.range (number_of_words ws)).filter
        (fun k => decide (wbD ws k ∈ S)), k < number_of_words ws ∧ wbD ws k ∈ S := by
      intro k hk
      rw [List.mem_filter, List.mem_range] at hk
      exact ⟨hk.1, by simpa using hk.2⟩
    have hmapnd : (((List.range (number_of_words ws)).filter
        fun k => decide (wbD ws k ∈ S)).map fun k => wbD ws k).Nodup := by
      refine List.Nodup.map_on ?_ hPnd
      intro k1 hk1 k2 hk2 hEq
      exact wbD_inj ws (hPlt k1 hk1).1 (hPlt k2 hk2).1 hEq
    have htofin : ((((List.range (number_of_words ws)).filter
        fun k => decide (wbD ws k ∈ S)).map fun k => wbD ws k).toFinset : Finset Nat) = S := by
      apply Finset.ext
      intro m
      rw [List.mem_toFinset, List.mem_map]
      constructor
      · rintro ⟨k, hk, rfl⟩
        exact (hPlt k hk).2
      · intro hmS
        obtain ⟨k, hklen, hEq⟩ := mem_iff_getD.mp (hmem m hmS)
        refine ⟨k, ?_, ?_⟩
        · rw [List.mem_filter, List.mem_range, ← number_of_words_eq] at *
          refine ⟨by omega, ?_⟩
          have : wbD ws k = m := hEq
          rw [this]
          simpa using hmS
        · exact hEq
    have hlen5 : ((List.range (number_of_words ws)).filter
        fun k => decide (wbD ws k ∈ S)).length = 5 := by
      have hcardeq := List.toFinset_card_of_nodup hmapnd
      rw [htofin, hcard, List.length_map] at hcardeq
      omega
    obtain ⟨k1, k2, k3, k4, k5, hPeq⟩ := length_eq_five hlen5
    rw [hPeq] at hPpw hPlt htofin
    have hsorted : k1 < k2 ∧ k2 < k3 ∧ k3 < k4 ∧ k4 < k5 := by
      simp only [List.pairwise_cons, List.mem_cons, List.mem_singleton,
        List.not_mem_nil, or_false] at hPpw
      exact ⟨hPpw.1 k2 (Or.inl rfl), hPpw.2.1 k3 (Or.inl rfl),
        hPpw.2.2.1 k4 (Or.inl rfl), hPpw.2.2.2.1 k5 rfl⟩
    have hm1 := hPlt k1 (by simp)
    have hm2 := hPlt k2 (by simp)
    have hm3 := hPlt k3 (by simp)
    have hm4 := hPlt k4 (by simp)
    have hm5 := hPlt k5 (by simp)
    have hDJ : ∀ u v : Nat, u < number_of_words ws → v < number_of_words ws →
        wbD ws u ∈ S → wbD ws v ∈ S → u ≠ v → wbD ws u &&& wbD ws v = 0 := by
      intro u v hu hv hSu hSv huv
      exact hdisj _ hSu _ hSv fun hEq => huv (wbD_inj ws hu hv hEq)
    rw [matchMaskSets, List.mem_map]
    refine ⟨(k1, k2, k3, k4, k5), ?_, ?_⟩
    · rw [mem_matchesIdx]
      obtain ⟨hs1, hs2, hs3, hs4⟩ := hsorted
      refine ⟨hs1, hs2, hs3, hs4, hm5.1, ?_, ?_, ?_, ?_, ?_, ?_, ?_, ?_, ?_, ?_⟩
      · exact hDJ k1 k2 hm1.1 hm2.1 hm1.2 hm2.2 (by omega)
      · exact hDJ k1 k3 hm1.1 hm3.1 hm1.2 hm3.2 (by omega)
      · exact hDJ k1 k4 hm1.1 hm4.1 hm1.2 hm4.2 (by omega)
      · exact hDJ k1 k5 hm1.1 hm5.1 hm1.2 hm5.2 (by omega)
      · exact hDJ k2 k3 hm2.1 hm3.1 hm2.2 hm3.2 (by omega)
      · exact hDJ k2 k4 hm2.1 hm4.1 hm2.2 hm4.2 (by omega)
      · exact hDJ k2 k5 hm2.1 hm5.1 hm2.2 hm5.2 (by omega)
      · exact hDJ k3 k4 hm3.1 hm4.1 hm3.2 hm4.2 (by omega)
      · exact hDJ k3 k5 hm3.1 hm5.1 hm3.2 hm5.2 (by omega)
      · exact hDJ k4 k5 hm4.1 hm5.1 hm4.2 hm5.2 (by omega)
    · dsimp only
      simp only [List.map_cons, List.map_nil] at htofin
      exact htofin

/-- The five bitmaps of an emitted match, as a pairwise-disjoint list. -/
lemma pairwise_disj_of_match (ws : List String) {i j x y z : Nat}
    (h : (i, j, x, y, z) ∈ matchesIdx ws) :
    ([wbD ws i, wbD ws j, wbD ws x, wbD ws y, wbD ws z] : List Nat).Pairwise
      (fun u v => u &&& v = 0) := by
  rw [mem_matchesIdx] at h
  obtain ⟨h1, h2, h3, h4, h5, d1, d2, d3, d4, d5, d6, d7, d8, d9, d10⟩ := h
  refine List.Pairwise.cons ?_ (List.Pairwise.cons ?_ (List.Pairwise.cons ?_
    (List.Pairwise.cons ?_ (List.pairwise_singleton _ _))))
  · intro v hv
    simp only [List.mem_cons, List.mem_singleton, List.not_mem_nil, or_false] at hv
    rcases hv with rfl | rfl | rfl | rfl
    exacts [d1, d2, d3, d4]
  · intro v hv
    simp only [List.mem_cons, List.mem_singleton, List.not_mem_nil, or_false] at hv
    rcases hv with rfl | rfl | rfl
    exacts [d5, d6, d7]
  · intro v hv
    simp only [List.mem_cons, List.mem_singleton, List.not_mem_nil, or_false] at hv
    rcases hv with rfl | rfl
    exacts [d8, d9]
  · intro v hv
    simp only [List.mem_singleton] at hv
    subst hv
    exact d10

/-! ### The audited claims -/

/-- C1: the specification claims that every admitted word (length 5, five
distinct lowercase letters) is assigned to exactly one bucket, the catch-all
bucket catching everything without a named pivot letter, so that no admitted
word is dropped by partitioning.  The code violates this: its catch-all
entry is `0xffff`, which covers only the letters `a..p`, so the admitted
word "vwxyz" (letters `v,w,x,y,z`, bits 21-25) intersects no bucket entry
and is silently dropped — the search corpus built from `["vwxyz"]` is empty. -/
theorem c1_admitted_word_dropped_by_partition :
    isAdmitted "vwxyz" = true ∧
      bucketFor (bitmapOf (wordCodes "vwxyz")) letter_bitmaps = none ∧
      unique_words ["vwxyz"] = [] ∧ word_bitmaps ["vwxyz"] = [] := by
  refine ⟨by decide, by decide, by decide, by decide⟩

/-- C2: the set of index 5-tuples produced by the pruned, bucketed search
equals the set produced by a brute-force scan over all index 5-tuples
`i < j < a < b < c` keeping exactly the pairwise-disjoint ones. -/
theorem c2_pruned_search_equals_brute_force (ws : List String)
    (t : Nat × Nat × Nat × Nat × Nat) : t ∈ matchesIdx ws ↔ t ∈ bruteForce ws := by
  obtain ⟨i, j, x, y, z⟩ := t
  rw [mem_matchesIdx, mem_bruteForce]

/-- C3: for every emitted match, the five underlying letter bitmaps are
pairwise disjoint and their bitwise OR has exactly 25 set bits. -/
theorem c3_match_masks_disjoint_cover25 (ws : List String) (i j x y z : Nat)
    (h : (i, j, x, y, z) ∈ matchesIdx ws) :
    ([wbD ws i, wbD ws j, wbD ws x, wbD ws y, wbD ws z] : List Nat).Pairwise
        (fun u v => u &&& v = 0) ∧
      popcount32 (wbD ws i ||| wbD ws j ||| wbD ws x ||| wbD ws y ||| wbD ws z) = 25 := by
  refine ⟨pairwise_disj_of_match ws h, ?_⟩
  rw [mem_matchesIdx] at h
  obtain ⟨h1, h2, h3, h4, h5, d1, d2, d3, d4, d5, d6, d7, d8, d9, d10⟩ := h
  have p_i : popcount32 (wbD ws i) = WORD_LENGTH := wb_pc5 ws _ (wbD_mem ws (by omega))
  have p_j : popcount32 (wbD ws j) = WORD_LENGTH := wb_pc5 ws _ (wbD_mem ws (by omega))
  have p_x : popcount32 (wbD ws x) = WORD_LENGTH := wb_pc5 ws _ (wbD_mem ws (by omega))
  have p_y : popcount32 (wbD ws y) = WORD_LENGTH := wb_pc5 ws _ (wbD_mem ws (by omega))
  have p_z : popcount32 (wbD ws z) = WORD_LENGTH := wb_pc5 ws _ (wbD_mem ws h5)
  have hd3 : (wbD ws i ||| wbD ws j) &&& wbD ws x = 0 := or_and_eq_zero_iff.mpr ⟨d2, d5⟩
  have hd4 : (wbD ws i ||| wbD ws j ||| wbD ws x) &&& wbD ws y = 0 :=
    or_and_eq_zero_iff.mpr ⟨or_and_eq_zero_iff.mpr ⟨d3, d6⟩, d8⟩
  have hd5 : (wbD ws i ||| wbD ws j ||| wbD ws x ||| wbD ws y) &&& wbD ws z = 0 :=
    or_and_eq_zero_iff.mpr ⟨or_and_eq_zero_iff.mpr ⟨or_and_eq_zero_iff.mpr ⟨d4, d7⟩, d9⟩, d10⟩
  rw [popcount32_or hd5, popcount32_or hd4, popcount32_or hd3, popcount32_or d1,
    p_i, p_j, p_x, p_y, p_z]
  rfl

/-- Witness for C3 at a concrete corpus: the single match of the 25-letter
input list. -/
theorem c3_match_masks_witness :
    ([wbD ["abcde", "fghij", "klmno", "pqrst", "uvwxy"] 0,
      wbD ["abcde", "fghij", "klmno", "pqrst", "uvwxy"] 1,
      wbD ["abcde", "fghij", "klmno", "pqrst", "uvwxy"] 2,
      wbD ["abcde", "fghij", "klmno", "pqrst", "uvwxy"] 3,
      wbD ["abcde", "fghij", "klmno", "pqrst", "uvwxy"] 4] : List Nat).Pairwise
        (fun u v => u &&& v = 0) ∧
      popcount32 (wbD ["abcde", "fghij", "klmno", "pqrst", "uvwxy"] 0 |||
        wbD ["abcde", "fghij", "klmno", "pqrst", "uvwxy"] 1 |||
        wbD ["abcde", "fghij", "klmno", "pqrst", "uvwxy"] 2 |||
        wbD ["abcde", "fghij", "klmno", "pqrst", "uvwxy"] 3 |||
        wbD ["abcde", "fghij", "klmno", "pqrst", "uvwxy"] 4) = 25 :=
  c3_match_masks_disjoint_cover25 ["abcde", "fghij", "klmno", "pqrst", "uvwxy"] 0 1 2 3 4
    (by decide)

/-- An explicit five-element chain is strictly pairwise increasing. -/
lemma pairwise_lt_five {a b c d e : Nat} (h1 : a < b) (h2 : b < c) (h3 : c < d)
    (h4 : d < e) : List.Pairwise (· < ·) ([a, b, c, d, e] : List Nat) := by
  refine List.Pairwise.cons ?_ (List.Pairwise.cons ?_ (List.Pairwise.cons ?_
    (List.Pairwise.cons ?_ (List.pairwise_singleton _ _))))
  · intro v hv
    simp only [List.mem_cons, List.mem_singleton, List.not_mem_nil, or_false] at hv
    rcases hv with rfl | rfl | rfl | rfl <;> omega
  · intro v hv
    simp only [List.mem_cons, List.mem_singleton, List.not_mem_nil, or_false] at hv
    rcases hv with rfl | rfl | rfl <;> omega
  · intro v hv
    simp only [List.mem_cons, List.mem_singleton, List.not_mem_nil, or_false] at hv
    rcases hv with rfl | rfl <;> omega
  · intro v hv
    simp only [List.mem_singleton] at hv
    subst hv
    omega

/-- C4: the five indices of every emitted match are strictly increasing, so
no index repeats inside a match and two matches whose index sets coincide
are the same match (no permutation duplicates). -/
theorem c4_match_indices_increasing (ws : List String)
    (i j x y z i' j' x' y' z' : Nat)
    (h : (i, j, x, y, z) ∈ matchesIdx ws) (h' : (i', j', x', y', z') ∈ matchesIdx ws)
    (hperm : ∀ k, k ∈ ([i, j, x, y, z] : List Nat) ↔ k ∈ [i', j', x', y', z']) :
    (i < j ∧ j < x ∧ x < y ∧ y < z) ∧ (i, j, x, y, z) = (i', j', x', y', z') := by
  rw [mem_matchesIdx] at h h'
  obtain ⟨h1, h2, h3, h4, h5, -⟩ := h
  obtain ⟨g1, g2, g3, g4, g5, -⟩ := h'
  have hl1 : List.Pairwise (· < ·) ([i, j, x, y, z] : List Nat) :=
    pairwise_lt_five h1 h2 h3 h4
  have hl2 : List.Pairwise (· < ·) ([i', j', x', y', z'] : List Nat) :=
    pairwise_lt_five g1 g2 g3 g4
  have hnd1 : ([i, j, x, y, z] : List Nat).Nodup :=
    List.Pairwise.imp (fun hr => Nat.ne_of_lt hr) hl1
  have hnd2 : ([i', j', x', y', z'] : List Nat).Nodup :=
    List.Pairwise.imp (fun hr => Nat.ne_of_lt hr) hl2
  have htf : ([i, j, x, y, z] : List Nat).toFinset = ([i', j', x', y', z'] : List Nat).toFinset := by
    apply Finset.ext
    intro k
    rw [List.mem_toFinset, List.mem_toFinset]
    exact hperm k
  have hpm := List.perm_of_nodup_nodup_toFinset_eq hnd1 hnd2 htf
  have hEq := List.eq_of_perm_of_sorted hpm
    (List.Pairwise.imp (fun hr => Nat.le_of_lt hr) hl1)
    (List.Pairwise.imp (fun hr => Nat.le_of_lt hr) hl2)
  simp only [List.cons.injEq, and_true] at hEq
  obtain ⟨e1, e2, e3, e4, e5⟩ := hEq
  subst e1
  subst e2
  subst e3
  subst e4
  subst e5
  exact ⟨⟨h1, h2, h3, h4⟩, rfl⟩

/-- Witness for C4 at the concrete 25-letter corpus. -/
theorem c4_match_indices_witness :
    ((0 : Nat) < 1 ∧ (1 : Nat) < 2 ∧ (2 : Nat) < 3 ∧ (3 : Nat) < 4) ∧
      ((0, 1, 2, 3, 4) : Nat × Nat × Nat × Nat × Nat) = (0, 1, 2, 3, 4) :=
  c4_match_indices_increasing ["abcde", "fghij", "klmno", "pqrst", "uvwxy"]
    0 1 2 3 4 0 1 2 3 4 (by decide) (by decide) (fun k => Iff.rfl)

/-- C5: the specification requires the encoder to validate the character
range before computing the bit shift.  The code does not: every character of
every length-5 word reaches `1 << (c - 'a')` unvalidated, so the word
"Abcde" (uppercase first letter) computes the out-of-range shift amount
`'A' - 'a' = -32`, which is undefined behaviour in the C++ source. -/
theorem c5_out_of_range_shift :
    "Abcde".length = WORD_LENGTH ∧ (-32 : Int) ∈ shiftAmounts ["Abcde"] ∧
      ¬(0 ≤ (-32 : Int) ∧ (-32 : Int) < 32) := by
  refine ⟨by decide, by decide, by decide⟩

/-- C6: a word of the wrong length, or whose bitmap does not have exactly
five set bits, never enters the corpus; and every stored bitmap has
popcount exactly 5. -/
theorem c6_rejected_words_never_stored (ws : List String) (w : String) (_hw : w ∈ ws)
    (hrej : w.length ≠ WORD_LENGTH ∨ popcount32 (bitmapOf (wordCodes w)) ≠ WORD_LENGTH) :
    w ∉ unique_words ws ∧ ∀ bm ∈ word_bitmaps ws, popcount32 bm = WORD_LENGTH := by
  constructor
  · intro hmem
    have hadm := uw_admitted ws w hmem
    rw [isAdmitted_iff] at hadm
    rcases hrej with hbad | hbad
    · exact hbad hadm.1
    · exact hbad hadm.2
  · exact wb_pc5 ws

/-- Witness for C6: a 7-letter word is rejected. -/
theorem c6_rejected_witness :
    "toolong" ∉ unique_words ["toolong", "abcde"] ∧
      ∀ bm ∈ word_bitmaps ["toolong", "abcde"], popcount32 bm = WORD_LENGTH :=
  c6_rejected_words_never_stored ["toolong", "abcde"] "toolong" (by decide)
    (Or.inl (by decide))

/-- The two sides of each bucket have equal lengths. -/
lemma bucket_len_eq (ws : List String) (idx : Nat) :
    ((partitionWords ws).word_bitmaps_letters.getD idx []).length =
      ((partitionWords ws).unique_words_letters.getD idx []).length := by
  rw [(pinv_partition ws).aligned idx, List.length_map]

/-- The per-bucket size lists of the two sides agree. -/
lemma maps_len_eq (ws : List String) :
    (partitionWords ws).word_bitmaps_letters.map List.length =
      (partitionWords ws).unique_words_letters.map List.length := by
  have h := pinv_partition ws
  apply List.ext_getElem
  · rw [List.length_map, List.length_map, h.wlen, h.ulen]
  · intro n h1 h2
    rw [List.length_map] at h1 h2
    rw [List.getElem_map, List.getElem_map]
    have hbl := bucket_len_eq ws n
    rw [List.getD_eq_getElem _ _ h1, List.getD_eq_getElem _ _ h2] at hbl
    exact hbl

/-- The prefix sums agree between the bitmap side and the word side. -/
lemma bndF_sides_eq (ws : List String) (idx : Nat) :
    bndF (partitionWords ws).word_bitmaps_letters idx =
      bndF (partitionWords ws).unique_words_letters idx := by
  rw [bndF, bndF, List.map_take, List.map_take, maps_len_eq]

/-- C7: no bitmap appears twice in the final search index, and the word
stored at position `k` is the first input word (in input order) that is
admitted with the bitmap stored at position `k`. -/
theorem c7_first_seen_unique (ws : List String) (k : Nat) (hk : k < number_of_words ws) :
    (word_bitmaps ws).Nodup ∧
      ws.find? (fun w => isAdmitted w &&
          (bitmapOf (wordCodes w) == (word_bitmaps ws).getD k 0)) =
        some ((unique_words ws).getD k "") := by
  have h := pinv_partition ws
  refine ⟨wb_nodup ws, ?_⟩
  rw [number_of_words_eq, word_bitmaps] at hk
  obtain ⟨idx, hidx, off, hoff, rfl⟩ := flatten_index_decomp _ k hk
  have hwb : (word_bitmaps ws).getD
      (bndF (partitionWords ws).word_bitmaps_letters idx + off) 0 =
      ((partitionWords ws).word_bitmaps_letters.getD idx []).getD off 0 := by
    rw [word_bitmaps]
    exact flatten_getD _ idx off 0 hoff
  have huw : (unique_words ws).getD
      (bndF (partitionWords ws).word_bitmaps_letters idx + off) "" =
      ((partitionWords ws).unique_words_letters.getD idx []).getD off "" := by
    rw [unique_words, bndF_sides_eq ws idx]
    exact flatten_getD _ idx off "" (by rw [← bucket_len_eq ws idx]; exact hoff)
  rw [hwb, huw]
  exact h.firstSeen idx off hoff

/-- Witness for C7: with two anagrams in the input, position 0 stores the
first-seen one. -/
theorem c7_first_seen_witness :
    (word_bitmaps ["abcde", "edcba"]).Nodup ∧
      (["abcde", "edcba"] : List String).find? (fun w => isAdmitted w &&
          (bitmapOf (wordCodes w) == (word_bitmaps ["abcde", "edcba"]).getD 0 0)) =
        some ((unique_words ["abcde", "edcba"]).getD 0 "") :=
  c7_first_seen_unique ["abcde", "edcba"] 0 (by decide)

/-- C8 counterexample: permuting the input can change the emitted word
5-tuples, because first-seen deduplication picks a different anagram
representative.  Swapping the two anagrams "abcde" and "edcba" changes the
word stored for their common mask, so the word-tuple result sets differ. -/
theorem c8_counterexample_word_tuples :
    (["abcde", "edcba", "fghij", "klmno", "pqrst", "uvwxy"] : List String).Perm
        ["edcba", "abcde", "fghij", "klmno", "pqrst", "uvwxy"] ∧
      ["abcde", "pqrst", "klmno", "fghij", "uvwxy"] ∈
        matchesWords ["abcde", "edcba", "fghij", "klmno", "pqrst", "uvwxy"] ∧
      ["abcde", "pqrst", "klmno", "fghij", "uvwxy"] ∉
        matchesWords ["edcba", "abcde", "fghij", "klmno", "pqrst", "uvwxy"] := by
  refine ⟨List.Perm.swap _ _ _, by decide, by decide⟩

/-- C8 (amended): permuting the input list leaves invariant the set of
5-element letter-mask sets of the emitted matches (the word tuples may
differ only in which anagram represents a mask and in tuple order). -/
theorem c8_mask_sets_perm_invariant (ws1 ws2 : List String) (h : ws1.Perm ws2)
    (S : Finset Nat) : S ∈ matchMaskSets ws1 ↔ S ∈ matchMaskSets ws2 := by
  rw [mem_matchMaskSets_iff, mem_matchMaskSets_iff]
  constructor
  · rintro ⟨h1, h2, h3⟩
    exact ⟨h1, fun m hm => (wb_mem_perm h m).mp (h2 m hm), h3⟩
  · rintro ⟨h1, h2, h3⟩
    exact ⟨h1, fun m hm => (wb_mem_perm h m).mpr (h2 m hm), h3⟩

/-- Witness for the amended C8 at the concrete swapped anagram lists. -/
theorem c8_mask_sets_witness :
    (∅ : Finset Nat) ∈ matchMaskSets ["abcde", "edcba", "fghij", "klmno", "pqrst", "uvwxy"] ↔
      (∅ : Finset Nat) ∈ matchMaskSets ["edcba", "abcde", "fghij", "klmno", "pqrst", "uvwxy"] :=
  c8_mask_sets_perm_invariant _ _ (List.Perm.swap _ _ _) ∅

/-- C9: the concrete corpus `{"nymph","fjord","waltz","glyph"}` produces an
empty result collection, and in general any corpus with fewer than five
indexed words produces no matches at all. -/
theorem c9_tiny_corpus_zero_matches (ws : List String) (h : number_of_words ws < 5) :
    matchesWords ["nymph", "fjord", "waltz", "glyph"] = [] ∧
      matchesIdx ws = [] ∧ matchesWords ws = [] := by
  have hidx : matchesIdx ws = [] := by
    rw [List.eq_nil_iff_forall_not_mem]
    intro t ht
    obtain ⟨i, j, x, y, z⟩ := t
    rw [mem_matchesIdx] at ht
    obtain ⟨o1, o2, o3, o4, o5, -⟩ := ht
    omega
  refine ⟨by decide, hidx, ?_⟩
  rw [matchesWords, hidx]
  rfl

/-- Witness for C9 at a one-word corpus. -/
theorem c9_tiny_corpus_witness :
    matchesWords ["nymph", "fjord", "waltz", "glyph"] = [] ∧
      matchesIdx ["abcde"] = [] ∧ matchesWords ["abcde"] = [] :=
  c9_tiny_corpus_zero_matches ["abcde"] (by decide)

/-- C10: the flat arrays stay aligned (the bitmap at every position is the
encoding of the word at the same position), and the boundary offsets are
non-decreasing, starting at 0 and ending with the sentinel equal to the
total corpus size. -/
theorem c10_index_arrays_aligned (ws : List String) (k : Nat)
    (hk : k < number_of_words ws) :
    (word_bitmaps ws).length = number_of_words ws ∧
      (unique_words ws).length = number_of_words ws ∧
      (word_bitmaps ws).getD k 0 = bitmapOf (wordCodes ((unique_words ws).getD k "")) ∧
      (word_bitmaps_boundaries ws).length = 14 ∧
      (word_bitmaps_boundaries ws).getD 0 0 = 0 ∧
      (word_bitmaps_boundaries ws).getD 13 0 = number_of_words ws ∧
      List.Pairwise (· ≤ ·) (word_bitmaps_boundaries ws) := by
  have hk' : k < (word_bitmaps ws).length := by
    rw [← number_of_words_eq]
    exact hk
  have hku : k < (unique_words ws).length := by
    rw [uw_length]
    exact hk
  refine ⟨(number_of_words_eq ws).symm, uw_length ws, ?_, ?_, ?_, ?_, ?_⟩
  · conv_lhs => rw [wb_map_eq ws]
    exact List.getD_map (unique_words ws) "" fun w => bitmapOf (wordCodes w)
  · rw [boundaries_length, wbl_length]
  · rw [boundaries_getD ws 0 (Nat.zero_le _)]
    simp [bndF]
  · rw [boundaries_getD ws 13 (Nat.le_of_eq (wbl_length ws).symm)]
    have hb := bndF_length (partitionWords ws).word_bitmaps_letters
    rw [wbl_length ws] at hb
    rw [hb, number_of_words]
  · rw [word_bitmaps_boundaries]
    exact scanl_add_pairwise_le _ _

/-- Witness for C10 at a one-word corpus. -/
theorem c10_index_arrays_witness :
    (word_bitmaps ["abcde"]).length = number_of_words ["abcde"] ∧
      (unique_words ["abcde"]).length = number_of_words ["abcde"] ∧
      (word_bitmaps ["abcde"]).getD 0 0 =
        bitmapOf (wordCodes ((unique_words ["abcde"]).getD 0 "")) ∧
      (word_bitmaps_boundaries ["abcde"]).length = 14 ∧
      (word_bitmaps_boundaries ["abcde"]).getD 0 0 = 0 ∧
      (word_bitmaps_boundaries ["abcde"]).getD 13 0 = number_of_words ["abcde"] ∧
      List.Pairwise (· ≤ ·) (word_bitmaps_boundaries ["abcde"]) :=
  c10_index_arrays_aligned ["abcde"] 0 (by decide)


end FiveWords
